import Mathlib

/-!
Verification development for the annotator selector-anchoring core.

The definitions below are a shallow embedding of the repository's source:

* `src/src/libs/anchors.js` (and its vendored `dom-anchor-text-quote`
  module): `fromTextPosition` (selector capture) and `toTextPosition`
  (quote resolution).  Document content is modelled as `List Char`,
  mirroring `root.textContent`; JS `String.indexOf(pat, from)` is
  modelled by `jsIndexOf` with the ECMAScript clamping of `from`.
* `src/src/ui/highlighter.js`: the selector-resolution pipeline
  (`selectorsToRange`), the decoration lifecycle (`draw`, `undraw`,
  `destroy`, `drawAll`) over a node-tree model of the DOM.
* `src/src/ui.js` (util module): `BrowserRange.normalize` and
  `NormalizedRange.textNodes`.

JS exceptions are modelled with `Except` carrying the thrown message;
JS `null`/`undefined` results with `Option`.
-/

namespace Annotator

/-! ## JS string search primitives -/

/-- `pat` occurs in `s` at index `i`, lying fully inside `s`. -/
def matchesAt (s pat : List Char) (i : Nat) : Bool :=
  decide (i + pat.length ≤ s.length ∧ (s.drop i).take pat.length = pat)

/-- Linear scan for the first match at index `≥ i`; `fuel` bounds the
number of candidate indices inspected. -/
def findFromAux (s pat : List Char) : Nat → Nat → Option Nat
  | _, 0 => none
  | i, fuel + 1 => if matchesAt s pat i then some i else findFromAux s pat (i + 1) fuel

/-- First index `i` with `start ≤ i ≤ s.length` at which `pat` matches. -/
def findFrom (s pat : List Char) (start : Nat) : Option Nat :=
  findFromAux s pat start (s.length + 1 - start)

/-- ECMAScript `String.indexOf` clamps the start position into
`[0, length]` before searching. -/
def clampIdx (len : Nat) (i : Int) : Nat :=
  min (max i 0).toNat len

/-- JS `s.indexOf(pat, fromIdx)`; `none` models the `-1` result. -/
def jsIndexOf (s pat : List Char) (fromIdx : Int) : Option Nat :=
  findFrom s pat (clampIdx s.length fromIdx)

/-! ## Quote selectors (`dom-anchor-text-quote`, vendored in
`src/src/libs`) -/

/-- `CONTEXT_LENGTH` from the source: up to 32 characters of context. -/
def CONTEXT_LENGTH : Nat := 32

/-- A `TextQuoteSelector`.  Field `pfx` is the source's `prefix`
(renamed: `prefix` is a Lean keyword); `exact` is always present here —
the source throws `'selector missing required property "exact"'`
otherwise, a case no claim exercises. -/
structure QuoteSel where
  exact : List Char
  pfx : Option (List Char) := none
  suffix : Option (List Char) := none
deriving DecidableEq

/-- Successful result of `fromTextPosition` (selector capture) for
in-range offsets.  `substr(a, n)` is `(content.drop a).take n`;
`Math.max(0, start - CONTEXT_LENGTH)` is Nat subtraction. -/
def captureQ (content : List Char) (start end_ : Nat) : QuoteSel :=
  let exact := (content.drop start).take (end_ - start)
  let pfxStart := start - CONTEXT_LENGTH
  let pfx := (content.drop pfxStart).take (start - pfxStart)
  let suffixEnd := min content.length (end_ + CONTEXT_LENGTH)
  let suffix := (content.drop end_).take (suffixEnd - end_)
  ⟨exact, some pfx, some suffix⟩

/-- `fromTextPosition(root, {start, end})`: validates the offsets, then
captures `exact` plus up to 32 characters of context on each side.
(The source's missing-parameter checks guard `undefined` arguments,
which have no counterpart here.) -/
def fromTextPosition (content : List Char) (start end_ : Int) :
    Except (List Char) QuoteSel :=
  if start < 0 then
    .error "property \"start\" must be a non-negative integer".toList
  else if end_ < 0 then
    .error "property \"end\" must be a non-negative integer".toList
  else
    .ok (captureQ content start.toNat end_.toNat)

/-- The cursor of `toTextPosition` after the context-relocation steps
(source lines: initialize `loc` from `options.hint` or `0`; advance past
the first occurrence of the prefix; else reposition using the suffix). -/
def relocCursor (content : List Char) (sel : QuoteSel) (hint : Option Int) : Int :=
  let loc0 : Int := match hint with | none => 0 | some h => h
  let step1 : Int × Bool :=
    match sel.pfx with
    | some p =>
      match jsIndexOf content p loc0 with
      | some r => (((r + p.length : Nat) : Int), true)
      | none => (loc0, false)
    | none => (loc0, false)
  match sel.suffix, step1.2 with
  | some sfx, false =>
    (match jsIndexOf content sfx (step1.1 + (sel.exact.length : Int)) with
     | some r => (r : Int) - (sel.exact.length : Int)
     | none => step1.1)
  | _, _ => step1.1

/-- `toTextPosition(root, selector, options)` from the vendored
`dom-anchor-text-quote` module in `src/src/libs` (the variant whose
default cursor is `0`): relocate the cursor using prefix/suffix, then
return the span of the first occurrence of `exact` at or after it;
`none` models the `null` (quote not found) result. -/
def toTextPosition (content : List Char) (sel : QuoteSel) (hint : Option Int) :
    Option (Nat × Nat) :=
  match jsIndexOf content sel.exact (relocCursor content sel hint) with
  | some r => some (r, r + sel.exact.length)
  | none => none

example : toTextPosition "a fox sees a fox".toList ⟨"fox".toList, none, none⟩ none
    = some (2, 5) := by decide

example : toTextPosition "The quick brown fox".toList
      (captureQ "The quick brown fox".toList 4 9) none = some (4, 9) := by decide

/-! ## DOM model

A document is a tree of element and text nodes.  Node identity (which
JS gets from object identity) is modelled by a `Nat` id, unique in any
well-formed document; fresh ids for nodes created by `splitText` and
`document.createElement` are minted from a counter. -/

/-- A DOM node: a text node with its `nodeValue`, or an element with
its `className` and child list. -/
inductive DNode where
  | text (id : Nat) (val : List Char)
  | elem (id : Nat) (cls : List Char) (children : List DNode)

def DNode.idOf : DNode → Nat
  | .text i _ => i
  | .elem i _ _ => i

def DNode.childrenOf : DNode → List DNode
  | .text _ _ => []
  | .elem _ _ cs => cs

mutual

/-- All node ids in the subtree, in document order. -/
def nodeIds : DNode → List Nat
  | .text i _ => [i]
  | .elem i _ cs => i :: nodeIdsList cs

def nodeIdsList : List DNode → List Nat
  | [] => []
  | c :: cs => nodeIds c ++ nodeIdsList cs

end

mutual

/-- Ids of the text nodes in the subtree, in document order. -/
def textIds : DNode → List Nat
  | .text i _ => [i]
  | .elem _ _ cs => textIdsList cs

def textIdsList : List DNode → List Nat
  | [] => []
  | c :: cs => textIds c ++ textIdsList cs

end

mutual

/-- `node.textContent`: concatenation of the text values in the
subtree, in document order. -/
def textContent : DNode → List Char
  | .text _ v => v
  | .elem _ _ cs => textContentList cs

def textContentList : List DNode → List Char
  | [] => []
  | c :: cs => textContent c ++ textContentList cs

end

mutual

/-- Look a node up by id (first hit in document order). -/
def findNode (x : Nat) : DNode → Option DNode
  | .text i v => if i = x then some (.text i v) else none
  | .elem i cls cs => if i = x then some (.elem i cls cs) else findNodeList x cs

def findNodeList (x : Nat) : List DNode → Option DNode
  | [] => none
  | c :: cs =>
    match findNode x c with
    | some n => some n
    | none => findNodeList x cs

end

mutual

/-- Id of the parent of node `x` inside this subtree. -/
def parentIdOf (x : Nat) : DNode → Option Nat
  | .text _ _ => none
  | .elem i _ cs =>
    if (cs.map DNode.idOf).contains x then some i else parentIdOfList x cs

def parentIdOfList (x : Nat) : List DNode → Option Nat
  | [] => none
  | c :: cs =>
    match parentIdOf x c with
    | some p => some p
    | none => parentIdOfList x cs

end

/-- The siblings following node `x` (its parent's children after it). -/
def siblingsAfter (root : DNode) (x : Nat) : List DNode :=
  match parentIdOf x root with
  | none => []
  | some p =>
    match findNode p root with
    | some n => ((n.childrenOf).dropWhile (fun c => c.idOf ≠ x)).drop 1
    | none => []

/-- The siblings preceding node `x`, nearest first. -/
def siblingsBefore (root : DNode) (x : Nat) : List DNode :=
  match parentIdOf x root with
  | none => []
  | some p =>
    match findNode p root with
    | some n => ((n.childrenOf).takeWhile (fun c => c.idOf ≠ x)).reverse
    | none => []

/-- `node.nextSibling` (as an id). -/
def nextSiblingOf (root : DNode) (x : Nat) : Option Nat :=
  (siblingsAfter root x).head?.map DNode.idOf

/-- `node.previousSibling` (as an id). -/
def prevSiblingOf (root : DNode) (x : Nat) : Option Nat :=
  (siblingsBefore root x).head?.map DNode.idOf

/-- `node.nodeValue` for text nodes (`null` on elements). -/
def nodeValueOf (root : DNode) (x : Nat) : Option (List Char) :=
  match findNode x root with
  | some (.text _ v) => some v
  | _ => none

/-- Whether `x` names an element node. -/
def isElemId (root : DNode) (x : Nat) : Bool :=
  match findNode x root with
  | some (.elem _ _ _) => true
  | _ => false

mutual

/-- `textNode.splitText(off)`: the text node `x` keeps its first `off`
characters and a new node with id `newId` holding the rest is inserted
directly after it. -/
def splitTextAt (x off newId : Nat) : DNode → DNode
  | .text i v => .text i v
  | .elem i cls cs => .elem i cls (splitTextAtList x off newId cs)

def splitTextAtList (x off newId : Nat) : List DNode → List DNode
  | [] => []
  | c :: cs =>
    match c with
    | .text i v =>
      if i = x then .text i (v.take off) :: .text newId (v.drop off) :: cs
      else .text i v :: splitTextAtList x off newId cs
    | .elem i cls ccs =>
      splitTextAt x off newId (.elem i cls ccs) :: splitTextAtList x off newId cs

end

mutual

/-- `parent.replaceChild(hl, node); hl.appendChild(node)` for a text
node `x`: wrap it in a fresh `<span class=cls>` element. -/
def wrapText (x newId : Nat) (cls : List Char) : DNode → DNode
  | .text i v => .text i v
  | .elem i c cs => .elem i c (wrapTextList x newId cls cs)

def wrapTextList (x newId : Nat) (cls : List Char) : List DNode → List DNode
  | [] => []
  | c :: cs =>
    match c with
    | .text i v =>
      if i = x then .elem newId cls [.text i v] :: cs
      else .text i v :: wrapTextList x newId cls cs
    | .elem i c2 ccs =>
      wrapText x newId cls (.elem i c2 ccs) :: wrapTextList x newId cls cs

end

mutual

/-- Unwrap node `x`: splice its children into its parent's child list
in its place, then discard `x` itself (the marker-removal step of
`undraw` and `destroy`).  On a document that does not contain `x` this
is the identity, matching the `h.parentNode !== null` skip. -/
def unwrapGo : DNode → Nat → DNode
  | .text i v, _ => .text i v
  | .elem i cls cs, x => .elem i cls (unwrapGoList cs x)

def unwrapGoList : List DNode → Nat → List DNode
  | [], _ => []
  | c :: cs, x =>
    if c.idOf = x then c.childrenOf ++ unwrapGoList cs x
    else unwrapGo c x :: unwrapGoList cs x

end

mutual

/-- Elements of the subtree (the subtree root included) whose class is
`cls`, in document order. -/
def markerIdsIncl (cls : List Char) : DNode → List Nat
  | .text _ _ => []
  | .elem i c ccs => (if c = cls then [i] else []) ++ markerIdsListIncl cls ccs

def markerIdsListIncl (cls : List Char) : List DNode → List Nat
  | [] => []
  | c :: cs => markerIdsIncl cls c ++ markerIdsListIncl cls cs

end

/-- `root.querySelectorAll("." + cls)`: descendant elements whose class
is `cls`, in document order (the root itself is not a descendant).
Markers are created with `className = cls` exactly, so the class-token
match is equality here. -/
def markerIds (cls : List Char) (root : DNode) : List Nat :=
  markerIdsListIncl cls root.childrenOf

mutual

/-- Deepest node whose subtree contains both `a` and `b` (the browser's
`range.commonAncestorContainer`). -/
def lcaOf (a b : Nat) : DNode → Option Nat
  | .text i _ =>
    if a = i ∧ b = i then some i else none
  | .elem i _ cs =>
    if (nodeIdsList cs).contains a ∧ (nodeIdsList cs).contains b then
      match lcaOfList a b cs with
      | some r => some r
      | none => some i
    else if (a = i ∨ (nodeIdsList cs).contains a) ∧
            (b = i ∨ (nodeIdsList cs).contains b) then some i
    else none

def lcaOfList (a b : Nat) : List DNode → Option Nat
  | [] => none
  | c :: cs =>
    match lcaOf a b c with
    | some r => some r
    | none => lcaOfList a b cs

end

/-- First text node in `n`'s subtree, else in the subtrees of the
siblings following `n` — `getFirstTextNodeNotBefore` from the util
module (the recursion tries `n` itself, descends into elements, then
moves to `n.nextSibling`; it never ascends past `n`'s parent). -/
def getFirstTextNodeNotBefore (root : DNode) (n : Nat) : Option Nat :=
  match findNode n root with
  | none => none
  | some nd => (textIds nd ++ textIdsList (siblingsAfter root n)).head?

/-- Last text node in `n`'s subtree, else in the subtrees of the
siblings preceding `n` — `getLastTextNodeUpTo` from the util module. -/
def getLastTextNodeUpTo (root : DNode) (n : Nat) : Option Nat :=
  match findNode n root with
  | none => none
  | some nd =>
    ((textIds nd).reverse ++ (siblingsBefore root n).flatMap
      (fun c => (textIds c).reverse)).head?

/-- The `while (n != null && n.nodeType !== TEXT_NODE) n = n.firstChild`
loop of `_normalizeEnd`: descend through first children until a text
node is reached (`none` when the chain dies out on a childless
element). -/
def firstChildChainText : DNode → Option Nat
  | .text i _ => some i
  | .elem _ _ [] => none
  | .elem _ _ (c :: _) => firstChildChainText c

/-! ## Ranges

A browser `Range` is a pair of (container, offset) boundary points plus
the `commonAncestorContainer` the browser computes for them. -/

mutual

/-- The text nodes of the subtree with their values, in document
order. -/
def textPairs : DNode → List (Nat × List Char)
  | .text i v => [(i, v)]
  | .elem _ _ cs => textPairsList cs

def textPairsList : List DNode → List (Nat × List Char)
  | [] => []
  | c :: cs => textPairs c ++ textPairsList cs

end

structure DRange where
  startContainer : Nat
  startOffset : Nat
  endContainer : Nat
  endOffset : Nat
  commonAncestorContainer : Nat
deriving DecidableEq

/-- Locate the start of a character span among text nodes: the first
node that still has a character at the (relative) position. -/
def locateStart : List (Nat × List Char) → Nat → Option (Nat × Nat)
  | [], _ => none
  | (i, v) :: rest, s =>
    if s < v.length then some (i, s) else locateStart rest (s - v.length)

/-- Locate the end of a character span among text nodes: the first node
whose end reaches the (relative) position. -/
def locateEnd : List (Nat × List Char) → Nat → Option (Nat × Nat)
  | [], _ => none
  | (i, v) :: rest, e =>
    if e ≤ v.length then some (i, e) else locateEnd rest (e - v.length)

/-- Modelled from the spec: the external `dom-anchor-text-position`
dependency's `toRange` (§6 "document content accessor"), which turns a
character span over `root.textContent` into a structural range whose
boundary points sit on text nodes; spans beyond the available content
yield no range (§4.4 "fails ... if offsets exceed available
content"). -/
def charSpanToRange (root : DNode) (s e : Nat) : Option DRange :=
  let ps := textPairs root
  match locateStart ps s, locateEnd ps e with
  | some (si, so), some (ei, eo) =>
    (lcaOf si ei root).map fun ca => ⟨si, so, ei, eo, ca⟩
  | _, _ => none

/-- Global character position of a (text node, offset) boundary
point. -/
def charPosOf (root : DNode) (nid off : Nat) : Option Nat :=
  let rec go : List (Nat × List Char) → Nat → Option Nat
    | [], _ => none
    | (i, v) :: rest, acc =>
      if i = nid then some (acc + off) else go rest (acc + v.length)
  go (textPairs root) 0

/-- Browser `range.toString()`: the document text between the two
boundary points. -/
def rangeToString (root : DNode) (r : DRange) : List Char :=
  match charPosOf root r.startContainer r.startOffset,
        charPosOf root r.endContainer r.endOffset with
  | some a, some b => ((textContent root).drop a).take (b - a)
  | _, _ => []

/-! ## `BrowserRange.normalize` (util module of `src/src/ui.js`) -/

/-- A document plus the fresh-id counter for nodes created by
`splitText` / `createElement`. -/
structure DocState where
  root : DNode
  fresh : Nat

def typeErrorMsg : List Char := "TypeError".toList

def indexSizeErrorMsg : List Char := "IndexSizeError".toList

structure BrowserRange where
  commonAncestorContainer : Nat
  startContainer : Nat
  startOffset : Nat
  endContainer : Nat
  endOffset : Nat
  tainted : Bool := false
deriving DecidableEq

/-- Result of `BrowserRange.normalize`: fields `startN` / `endN` are
the source's `start` / `end` (`end` is a Lean keyword).  `startN` can
be `none` (JS `null`) when the range's start normalizes to no text
node. -/
structure NormalizedRange where
  commonAncestor : Nat
  startN : Option Nat
  endN : Nat
deriving DecidableEq

/-- What a call to `normalize` hands back on a non-throwing path: a
`NormalizedRange`, or the bare `false` value a tainted range
produces. -/
inductive NormResult where
  | normed (nr : NormalizedRange)
  | falseValue
deriving DecidableEq

/-- `_normalizeStart`: resolve the range start to a text node and
offset.  An element container indexes `childNodes[startOffset]` and
takes the first text node not before it (JS throws a `TypeError` when
that child is `undefined`); a missing id means the range points outside
the modelled document. -/
def normStartPoint (root : DNode) (br : BrowserRange) :
    Except (List Char) (Option Nat × Nat) :=
  match findNode br.startContainer root with
  | some (.elem _ _ cs) =>
    match cs[br.startOffset]? with
    | none => .error typeErrorMsg
    | some c => .ok (getFirstTextNodeNotBefore root c.idOf, 0)
  | some (.text _ _) => .ok (some br.startContainer, br.startOffset)
  | none => .error typeErrorMsg

/-- `_normalizeEnd`: resolve the range end to a text node and offset.
The element branch first descends through first children from
`childNodes[endOffset]`; failing that it takes the last text node up to
the preceding child (or the container's previous sibling), reading its
length — each `null` dereference of the source throws. -/
def normEndPoint (root : DNode) (br : BrowserRange) :
    Except (List Char) (Nat × Nat) :=
  match findNode br.endContainer root with
  | some (.elem _ _ cs) =>
    let viaChild : Option Nat :=
      match cs[br.endOffset]? with
      | some nd => firstChildChainText nd
      | none => none
    match viaChild with
    | some t => .ok (t, 0)
    | none =>
      let node2 : Option Nat :=
        if br.endOffset ≠ 0 then (cs[br.endOffset - 1]?).map DNode.idOf
        else prevSiblingOf root br.endContainer
      match node2 with
      | none => .error typeErrorMsg
      | some nid =>
        match getLastTextNodeUpTo root nid with
        | none => .error typeErrorMsg
        | some t =>
          match nodeValueOf root t with
          | some v => .ok (t, v.length)
          | none => .error typeErrorMsg
  | some (.text _ _) => .ok (br.endContainer, br.endOffset)
  | none => .error typeErrorMsg

/-- The body of `normalize` after the taint check: normalize both
boundary points, split the start node (and, for a one-node range, the
end of the selection) so the span sits on node boundaries, and walk the
common ancestor container up to an element. -/
def normalizeCore (br : BrowserRange) (st : DocState) :
    Except (List Char) (NormalizedRange × DocState) := do
  let (rStart, rStartOffset) ← normStartPoint st.root br
  let (rEnd, rEndOffset) ← normEndPoint st.root br
  -- split start node if needed
  let (nrStart, st1) ←
    if rStartOffset > 0 then
      match rStart with
      | none => .error typeErrorMsg      -- r.start.nodeValue on null
      | some sid =>
        match nodeValueOf st.root sid with
        | none => .error typeErrorMsg
        | some v =>
          if v.length > rStartOffset then
            .ok (some st.fresh,
              (⟨splitTextAt sid rStartOffset st.fresh st.root, st.fresh + 1⟩ : DocState))
          else
            .ok (nextSiblingOf st.root sid, st)
    else
      .ok (rStart, st)
  -- handle end node: `r.start === r.end` is object identity in JS
  let (nrEnd, st2) ←
    if rStart = some rEnd then
      match nrStart with
      | none => .error typeErrorMsg      -- nr.start.nodeValue on null
      | some ns =>
        match nodeValueOf st1.root ns with
        | none => .error typeErrorMsg    -- nr.start is an element: nodeValue is null
        | some v =>
          let diff : Int := (rEndOffset : Int) - (rStartOffset : Int)
          if (v.length : Int) > diff then
            if diff < 0 then .error indexSizeErrorMsg  -- splitText with a negative offset
            else .ok (ns,
              (⟨splitTextAt ns diff.toNat st1.fresh st1.root, st1.fresh + 1⟩ : DocState))
          else .ok (ns, st1)
    else
      match nodeValueOf st1.root rEnd with
      | none => .error typeErrorMsg
      | some v =>
        if v.length > rEndOffset then
          .ok (rEnd,
            (⟨splitTextAt rEnd rEndOffset st1.fresh st1.root, st1.fresh + 1⟩ : DocState))
        else .ok (rEnd, st1)
  -- find common ancestor element (in this tree model every parent is an
  -- element, so the source's while loop runs at most one step)
  let ca ←
    match findNode br.commonAncestorContainer st2.root with
    | some (.elem i _ _) => Except.ok i
    | some (.text i _) =>
      match parentIdOf i st2.root with
      | some p => Except.ok p
      | none => Except.error typeErrorMsg
    | none => Except.error typeErrorMsg
  return (⟨ca, nrStart, nrEnd⟩, st2)

/-- `BrowserRange.normalize`: a tainted range logs an error and returns
`false`; otherwise the range is tainted and normalized.  The updated
`BrowserRange` (the mutated `this`) is returned alongside.  (On a
throwing path the pre-call document is returned: in the source the
exception propagates out of `draw`/`drawAll`, and no caller observes
the document again after that.) -/
def BrowserRange.normalize (br : BrowserRange) (st : DocState) :
    Except (List Char) NormResult × BrowserRange × DocState :=
  if br.tainted then (.ok .falseValue, br, st)
  else
    let br' := { br with tainted := true }
    match normalizeCore br' st with
    | .ok (nr, stA) => (.ok (.normed nr), br', stA)
    | .error e => (.error e, br', st)

/-! ## `NormalizedRange.textNodes` and highlight wrapping -/

/-- JS `Array.prototype.indexOf` over a node list, `-1` when absent —
also fed `null` (`none`) when a normalized range has no start node. -/
def jsIndexOfList (l : List Nat) (x : Option Nat) : Int :=
  match x with
  | none => -1
  | some v => if v ∈ l then (l.indexOf v : Int) else -1

/-- JS `Array.prototype.slice(s, e)` (negative indices count from the
end, everything clamped). -/
def jsSliceList (l : List Nat) (s e : Int) : List Nat :=
  let len : Int := l.length
  let s' := if s < 0 then max (len + s) 0 else min s len
  let e' := if e < 0 then max (len + e) 0 else min e len
  (l.take e'.toNat).drop s'.toNat

/-- `NormalizedRange.textNodes()`: walk every text node under the
common ancestor (a `TreeWalker` visits descendants only) and slice from
the start node to the end node inclusive. -/
def NormalizedRange.textNodes (nr : NormalizedRange) (root : DNode) : List Nat :=
  let tns : List Nat :=
    match findNode nr.commonAncestor root with
    | some (.elem _ _ cs) => textIdsList cs
    | _ => []
  let s := jsIndexOfList tns nr.startN
  let e := jsIndexOfList tns (some nr.endN)
  jsSliceList tns s (e + 1)

/-- The `/^\s*$/` whitespace-only test of `highlightRange` (the common
JS whitespace characters; the full `\s` class also has Unicode spaces,
which no claim exercises). -/
def wsOnly (v : List Char) : Bool :=
  v.all fun c =>
    decide (c = ' ' ∨ c = '\t' ∨ c = '\n' ∨ c = '\r' ∨ c = '\x0b' ∨ c = '\x0c')

/-- The wrapping loop of `highlightRange`: wrap each non-whitespace
text node in a fresh highlight `<span>`, collecting the created marker
elements. -/
def highlightRangeGo (cls : List Char) : List Nat → DocState → List Nat × DocState
  | [], st => ([], st)
  | nid :: rest, st =>
    match nodeValueOf st.root nid with
    | none => highlightRangeGo cls rest st   -- unreachable: the walker yields text nodes
    | some v =>
      if wsOnly v then highlightRangeGo cls rest st
      else
        let st' : DocState := ⟨wrapText nid st.fresh cls st.root, st.fresh + 1⟩
        (st.fresh :: (highlightRangeGo cls rest st').1, (highlightRangeGo cls rest st').2)

/-- `highlightRange(normedRange, cssClass)` from
`src/src/ui/highlighter.js`. -/
def highlightRange (nr : NormalizedRange) (cls : List Char) (st : DocState) :
    List Nat × DocState :=
  highlightRangeGo cls (nr.textNodes st.root) st

/-! ## Selectors, annotations and the resolution pipeline -/

/-- A `TextPositionSelector` (source fields `start` / `end`). -/
structure PositionSel where
  start : Int
  end_ : Int
deriving DecidableEq

/-- The serialized selectors `selectorsToRange` dispatches on; other
`type` tags fall through the switch and are ignored. -/
inductive Selector where
  | position (p : PositionSel)
  | quote (q : QuoteSel)
  | other
deriving DecidableEq

/-- One entry of `annotation.target`; `selector` is `none` when the
target carries no selector array. -/
structure Target where
  selector : Option (List Selector) := none
deriving DecidableEq

/-- The `_local` transient state: `draw` stores the resolved ranges and
the applied highlight elements; `undraw` deletes `highlights` only. -/
structure AnnLocal where
  ranges : Option (List DRange) := none
  highlights : Option (List Nat) := none
deriving DecidableEq

/-- An annotation object (`Ann`, JS name `annotation`): the persisted
id, the selector-bearing targets, and the `_local` transient state
(`none` models an absent `_local`). -/
structure Ann where
  id? : Option Nat := none
  target : List Target := []
  _local : Option AnnLocal := none
deriving DecidableEq

/-- The target loop of `selectorsToRange`: every target with a selector
array overwrites `selectors`, so the last one wins. -/
def lastSelectors (ts : List Target) : List Selector :=
  ts.foldl (fun acc t => match t.selector with | some s => s | none => acc) []

/-- The selector switch: each `TextPositionSelector` overwrites
`position`, so the last one wins. -/
def lastPositionSel (ss : List Selector) : Option PositionSel :=
  ss.foldl (fun acc s => match s with | .position p => some p | _ => acc) none

/-- The selector switch: each `TextQuoteSelector` overwrites `quote`,
so the last one wins. -/
def lastQuoteSel (ss : List Selector) : Option QuoteSel :=
  ss.foldl (fun acc s => match s with | .quote q => some q | _ => acc) none

def quoteMismatchMsg : List Char := "quote mismatch".toList

def quoteNotFoundMsg : List Char := "Quote not found".toList

def unableToAnchorMsg : List Char := "unable to anchor".toList

/-- `querySelector(TextPositionAnchor, root, position)`:
`TextPositionAnchor.fromSelector` copies the offsets unchecked and
`toRange` hands them to the external `dom-anchor-text-position`
library.  Modelled from the spec (§4.1): negative offsets are a
`MalformedSelectorError`; otherwise the span is applied structurally
via `charSpanToRange`, out-of-content offsets failing
(`OutOfRangeError`, §4.4). -/
def positionQuery (root : DNode) (p : PositionSel) : Except (List Char) DRange :=
  if p.start < 0 ∨ p.end_ < 0 then
    .error "MalformedSelectorError".toList
  else
    match charSpanToRange root p.start.toNat p.end_.toNat with
    | some r => .ok r
    | none => .error "OutOfRangeError".toList

/-- `querySelector(TextQuoteAnchor, root, quote, options)`:
`TextQuoteAnchor.toRange` resolves the quote with `toTextPosition`
(throwing `'Quote not found'` on `null`) and converts the span to a
range with the external `dom-anchor-text-position` library
(`charSpanToRange`, see `positionQuery`). -/
def quoteQuery (root : DNode) (q : QuoteSel) (hint : Option Int) :
    Except (List Char) DRange :=
  match toTextPosition (textContent root) q hint with
  | none => .error quoteNotFoundMsg
  | some (s, e) =>
    match charSpanToRange root s e with
    | some r => .ok r
    | none => .error "OutOfRangeError".toList

/-- `maybeAssertQuote`: when a quote selector with an `exact` is
present, a resolved range whose text differs throws
`'quote mismatch'`. -/
def maybeAssertQuote (root : DNode) (quote : Option QuoteSel) (r : DRange) :
    Except (List Char) DRange :=
  match quote with
  | some q => if rangeToString root r ≠ q.exact then .error quoteMismatchMsg else .ok r
  | none => .ok r

/-- The pipeline body, after the selector loops have picked at most one
position and one quote selector: try the position selector (verifying
against the quote), fall through to the quote selector, and fail with
`'unable to anchor'` when neither yields a range.  `selectorsToRange`
passes an empty options object, so the quote search runs without a
hint. -/
def selectorsToRangeCore (root : DNode) (position : Option PositionSel)
    (quote : Option QuoteSel) : Except (List Char) DRange :=
  let step2 : Except (List Char) DRange :=
    match quote with
    | some q =>
      match quoteQuery root q none with
      | .ok r => .ok r
      | .error _ => .error unableToAnchorMsg
    | none => .error unableToAnchorMsg
  match position with
  | some p =>
    match positionQuery root p with
    | .ok r =>
      match maybeAssertQuote root quote r with
      | .ok r' => .ok r'
      | .error _ => step2
    | .error _ => step2
  | none => step2

/-- `selectorsToRange(annotation, rootElement)` from
`src/src/ui/highlighter.js`. -/
def selectorsToRange (ann : Ann) (root : DNode) : Except (List Char) DRange :=
  let selectors := lastSelectors ann.target
  selectorsToRangeCore root (lastPositionSel selectors) (lastQuoteSel selectors)

/-! ## The `Highlighter` lifecycle -/

/-- `Highlighter.options` (the `chunkDelay` pause is pure scheduling
and does not influence any result). -/
structure HighlighterOpts where
  highlightClass : List Char := "annotator-hl".toList
  chunkSize : Nat := 10
  chunkDelay : Nat := 10
deriving DecidableEq

/-- `reanchorRange(range, rootElement)`: build a fresh `BrowserRange`
over the given range and normalize it; the `catch` block rethrows, so
errors propagate unchanged. -/
def reanchorRange (r : DRange) (st : DocState) :
    Except (List Char) NormResult × DocState :=
  let br : BrowserRange :=
    ⟨r.commonAncestorContainer, r.startContainer, r.startOffset,
     r.endContainer, r.endOffset, false⟩
  match br.normalize st with
  | (res, _, st') => (res, st')

/-- The reanchoring loop of `draw` over `_local.ranges`: each result is
pushed unless it is `null` — which `reanchorRange` never returns, so
`false` results are kept as well. -/
def reanchorAll (rs : List DRange) (st : DocState) :
    Except (List Char) (List NormResult × DocState) :=
  match rs with
  | [] => .ok ([], st)
  | r :: rest => do
    let (nr, st') := reanchorRange r st
    let n ← nr
    let (ns, st'') ← reanchorAll rest st'
    return (n :: ns, st'')

/-- The highlighting loop of `draw` over the normalized ranges.  A
`false` left by a tainted reanchor would crash
(`normed.textNodes is not a function`), modelled as a `TypeError`. -/
def highlightAll (cls : List Char) (ns : List NormResult) (st : DocState) :
    Except (List Char) (List Nat × DocState) :=
  match ns with
  | [] => .ok ([], st)
  | .falseValue :: _ => .error typeErrorMsg
  | .normed nr :: rest => do
    let (hs, st') := highlightRange nr cls st
    let (hs', st'') ← highlightAll cls rest st'
    return (hs ++ hs', st'')

/-- `Highlighter.draw(annotation)`: resolve the selectors to a range,
store `[range]` as `_local.ranges`, normalize and wrap each range, and
push the created markers onto `_local.highlights` (creating the array
only when missing).  Returns the full `_local.highlights` list.  (The
`hl.annotation` back-references and the `data-annotation-id` attributes
set on the markers have no counterpart in this node model.) -/
def draw (opts : HighlighterOpts) (ann : Ann) (st : DocState) :
    Except (List Char) (List Nat × Ann × DocState) := do
  let range ← selectorsToRange ann st.root
  let local0 := ann._local.getD {}
  let ranges : List DRange := [range]
  let (normed, st1) ← reanchorAll ranges st
  let oldHighlights := local0.highlights.getD []
  let (created, st2) ← highlightAll opts.highlightClass normed st1
  let highlights := oldHighlights ++ created
  let ann' : Ann :=
    { ann with _local := some { ranges := some ranges, highlights := some highlights } }
  return (highlights, ann', st2)

/-- One marker-removal step of `undraw`: skip markers whose
`parentNode` is `null` (not in the document), otherwise splice the
marker's children into its parent and remove it. -/
def undrawStep (root : DNode) (h : Nat) : DNode :=
  if (nodeIdsList root.childrenOf).contains h then unwrapGo root h else root

/-- `Highlighter.undraw(annotation)`: a no-op when no
`_local.highlights` list exists; otherwise unwrap each recorded marker
still in the document and delete the `highlights` list (keeping
`_local.ranges`). -/
def undraw (ann : Ann) (root : DNode) : Ann × DNode :=
  match ann._local with
  | none => (ann, root)
  | some l =>
    match l.highlights with
    | none => (ann, root)
    | some hs =>
      let root' := hs.foldl undrawStep root
      ({ ann with _local := some { l with highlights := none } }, root')

/-- `Highlighter.destroy()`: unwrap every element with the highlight
class anywhere under the root, regardless of owning annotation. -/
def destroy (opts : HighlighterOpts) (root : DNode) : DNode :=
  (markerIds opts.highlightClass root).foldl unwrapGo root

/-- The chunk loop (`loader`) of `drawAll`: draw each annotation of the
chunk — `await this.draw(annotation)` has no `try`/`catch`, so a
rejection aborts the whole loop — and recurse on the remainder after
the `chunkDelay` pause.  `fuel` only bounds the recursion for Lean; it
never runs out when `chunkSize > 0`. -/
def drawAllLoader (opts : HighlighterOpts) :
    Nat → List Ann → List Nat → DocState → Except (List Char) (List Nat × DocState)
  | 0, _, acc, st => .ok (acc, st)
  | _ + 1, [], acc, st => .ok (acc, st)
  | fuel + 1, annList, acc, st => do
    let now := annList.take opts.chunkSize
    let rest := annList.drop opts.chunkSize
    let (acc', st') ← drawChunk now acc st
    if rest.length > 0 then drawAllLoader opts fuel rest acc' st'
    else return (acc', st')
where
  /-- The `for (const annotation of now)` body: draw and push the
  returned marker array (always an array on success). -/
  drawChunk : List Ann → List Nat → DocState → Except (List Char) (List Nat × DocState)
    | [], acc, st => .ok (acc, st)
    | a :: rest, acc, st => do
      let (result, _, st') ← draw opts a st
      drawChunk rest (acc ++ result) st'

/-- `Highlighter.drawAll(annotations)`. -/
def drawAll (opts : HighlighterOpts) (anns : List Ann) (st : DocState) :
    Except (List Char) (List Nat × DocState) :=
  drawAllLoader opts (anns.length + 1) anns [] st

/-! ## Search lemmas: `findFrom` returns the first match -/

theorem matchesAt_le_length {s pat : List Char} {j : Nat}
    (h : matchesAt s pat j = true) : j ≤ s.length := by
  unfold matchesAt at h
  rw [decide_eq_true_iff] at h
  omega

theorem matchesAt_false_of_gt {s pat : List Char} {j : Nat}
    (h : s.length < j) : matchesAt s pat j = false := by
  unfold matchesAt
  rw [decide_eq_false_iff_not]
  intro hc
  omega

theorem findFromAux_some {s pat : List Char} :
    ∀ {fuel i r : Nat}, findFromAux s pat i fuel = some r →
      i ≤ r ∧ matchesAt s pat r = true ∧
        ∀ j, i ≤ j → j < r → matchesAt s pat j = false := by
  intro fuel
  induction fuel with
  | zero => intro i r h; simp [findFromAux] at h
  | succ n ih =>
    intro i r h
    rw [findFromAux] at h
    by_cases hm : matchesAt s pat i
    · rw [if_pos hm] at h
      injection h with h
      subst h
      exact ⟨Nat.le_refl _, hm, fun j hj hj' => absurd (Nat.lt_of_le_of_lt hj hj') (Nat.lt_irrefl _)⟩
    · rw [if_neg hm] at h
      obtain ⟨h1, h2, h3⟩ := ih h
      refine ⟨by omega, h2, fun j hj hj' => ?_⟩
      rcases Nat.eq_or_lt_of_le hj with rfl | hlt
      · exact Bool.eq_false_iff.mpr hm
      · exact h3 j hlt hj'

theorem findFromAux_none {s pat : List Char} :
    ∀ {fuel i : Nat}, findFromAux s pat i fuel = none →
      ∀ j, i ≤ j → j < i + fuel → matchesAt s pat j = false := by
  intro fuel
  induction fuel with
  | zero => intro i _ j hj hj'; omega
  | succ n ih =>
    intro i h j hj hj'
    rw [findFromAux] at h
    by_cases hm : matchesAt s pat i
    · rw [if_pos hm] at h; exact absurd h (by simp)
    · rw [if_neg hm] at h
      rcases Nat.eq_or_lt_of_le hj with rfl | hlt
      · exact Bool.eq_false_iff.mpr hm
      · exact ih h j hlt (by omega)

theorem findFrom_some {s pat : List Char} {f r : Nat}
    (h : findFrom s pat f = some r) :
    f ≤ r ∧ matchesAt s pat r = true ∧
      ∀ j, f ≤ j → j < r → matchesAt s pat j = false :=
  findFromAux_some h

theorem findFrom_none {s pat : List Char} {f : Nat}
    (h : findFrom s pat f = none) :
    ∀ j, f ≤ j → matchesAt s pat j = false := by
  intro j hj
  by_cases hjl : j ≤ s.length
  · exact findFromAux_none h j hj (by omega)
  · exact matchesAt_false_of_gt (by omega)

theorem findFrom_self {s pat : List Char} {f : Nat}
    (h : matchesAt s pat f = true) : findFrom s pat f = some f := by
  have hf : f ≤ s.length := matchesAt_le_length h
  unfold findFrom
  rw [show s.length + 1 - f = (s.length - f) + 1 by omega, findFromAux, if_pos h]

theorem findFrom_exists {s pat : List Char} {f i : Nat}
    (hm : matchesAt s pat i = true) (hf : f ≤ i) :
    ∃ r, findFrom s pat f = some r ∧ f ≤ r ∧ r ≤ i ∧ matchesAt s pat r = true := by
  cases hres : findFrom s pat f with
  | none => exact absurd (findFrom_none hres i hf) (by simp [hm])
  | some r =>
    obtain ⟨h1, h2, h3⟩ := findFrom_some hres
    refine ⟨r, rfl, h1, ?_, h2⟩
    by_contra hcon
    exact absurd (h3 i hf (by omega)) (by simp [hm])

/-! ## Claim C3: quote resolution is first-match-after-cursor -/

/-- C3: quote resolution initializes its cursor from `options.hint`
(else the policy default `0`), relocates it using the prefix (advancing
just past the prefix's first occurrence at or after the cursor when it
is found) or else the suffix (searched from cursor + len(exact)), and
then returns `[i, i + len(exact))` for the first occurrence `i` of
`exact` at or after the (clamped) cursor; when `exact` has no
occurrence at or after the cursor, resolution fails (the `null` that
`TextQuoteAnchor.toRange` turns into `QuoteNotFoundError`).  Prefix and
suffix enter only through the cursor `relocCursor`, never by scoring
candidate occurrences. -/
theorem toTextPosition_first_match_after_cursor
    (content : List Char) (sel : QuoteSel) (hint : Option Int) :
    (∀ s e, toTextPosition content sel hint = some (s, e) →
      e = s + sel.exact.length ∧
      matchesAt content sel.exact s = true ∧
      clampIdx content.length (relocCursor content sel hint) ≤ s ∧
      ∀ j, clampIdx content.length (relocCursor content sel hint) ≤ j → j < s →
        matchesAt content sel.exact j = false) ∧
    (toTextPosition content sel hint = none ↔
      ∀ j, clampIdx content.length (relocCursor content sel hint) ≤ j →
        matchesAt content sel.exact j = false) ∧
    (∀ p r, sel.pfx = some p → jsIndexOf content p (hint.getD 0) = some r →
      relocCursor content sel hint = ((r + p.length : Nat) : Int)) ∧
    (sel.pfx = none → sel.suffix = none →
      relocCursor content sel hint = hint.getD 0) := by
  refine ⟨?_, ?_, ?_, ?_⟩
  · intro s e h
    unfold toTextPosition jsIndexOf at h
    cases hf : findFrom content sel.exact
        (clampIdx content.length (relocCursor content sel hint)) with
    | none => rw [hf] at h; exact absurd h (by simp)
    | some r =>
      rw [hf] at h
      injection h with h
      obtain ⟨h1, h2, h3⟩ := findFrom_some hf
      cases h
      exact ⟨rfl, h2, h1, h3⟩
  · unfold toTextPosition jsIndexOf
    cases hf : findFrom content sel.exact
        (clampIdx content.length (relocCursor content sel hint)) with
    | none => simpa using findFrom_none hf
    | some r =>
      simp only []
      constructor
      · intro h; exact absurd h (by simp)
      · intro h
        obtain ⟨h1, h2, _⟩ := findFrom_some hf
        exact absurd (h r h1) (by simp [h2])
  · intro p r hp hr
    cases hint <;> cases hsfx : sel.suffix <;>
      simp_all [relocCursor, Option.getD]
  · intro hp hs
    unfold relocCursor
    rw [hp, hs]
    cases hint <;> rfl

/-- Witness for C3 at content `"ab"`, quote `"b"`, no hint: the result
span is `[1, 2)`, `"b"` matches at `1`, and no earlier position at or
after the cursor matches. -/
theorem toTextPosition_first_match_after_cursor_w :
    2 = 1 + "b".toList.length ∧
    matchesAt "ab".toList "b".toList 1 = true ∧
    clampIdx "ab".toList.length
      (relocCursor "ab".toList ⟨"b".toList, none, none⟩ none) ≤ 1 ∧
    ∀ j, clampIdx "ab".toList.length
        (relocCursor "ab".toList ⟨"b".toList, none, none⟩ none) ≤ j → j < 1 →
      matchesAt "ab".toList "b".toList j = false :=
  (toTextPosition_first_match_after_cursor "ab".toList
    ⟨"b".toList, none, none⟩ none).1 1 2 (by decide)

/-! ## Claim C4: capture followed by resolve -/

/-- Counterexample to C4 as stated: on a 34-character document of `'a'`
with selection `(33, 34)`, the captured 32-character prefix first
occurs at position `0`, so resolution advances the cursor only to `32`
and returns span `[32, 33)`, not the original `(33, 34)`. -/
theorem capture_resolve_roundtrip_cex :
    (List.replicate 34 'a').length = 34 ∧
    fromTextPosition (List.replicate 34 'a') 33 34
      = .ok (captureQ (List.replicate 34 'a') 33 34) ∧
    toTextPosition (List.replicate 34 'a')
      (captureQ (List.replicate 34 'a') 33 34) none = some (32, 33) ∧
    toTextPosition (List.replicate 34 'a')
      (captureQ (List.replicate 34 'a') 33 34) none ≠ some (33, 34) :=
  ⟨by decide, rfl, by decide, by decide⟩

/-- C4 (amended): capture-then-resolve returns the original `(start,
end)` for all `start ≤ end ≤ len(content)` **provided** the captured
prefix's first occurrence in the document is at its original position
`start - len(prefix)` (in particular this always holds when
`start ≤ 32`, where the prefix reaches back to the document start); a
repeated prefix further left can relocate the cursor short of `start`,
as the counterexample shows. -/
theorem capture_resolve_roundtrip (content : List Char) (start end_ : Nat)
    (h1 : start ≤ end_) (h2 : end_ ≤ content.length)
    (hpfx : findFrom content
        ((content.drop (start - CONTEXT_LENGTH)).take (start - (start - CONTEXT_LENGTH)))
        0 = some (start - CONTEXT_LENGTH)) :
    fromTextPosition content (start : Int) (end_ : Int)
      = .ok (captureQ content start end_) ∧
    toTextPosition content (captureQ content start end_) none = some (start, end_) := by
  have hL : start ≤ content.length := Nat.le_trans h1 h2
  have hplen : ((content.drop (start - CONTEXT_LENGTH)).take
      (start - (start - CONTEXT_LENGTH))).length = start - (start - CONTEXT_LENGTH) := by
    simp only [List.length_take, List.length_drop]
    omega
  have hexlen : ((content.drop start).take (end_ - start)).length = end_ - start := by
    simp only [List.length_take, List.length_drop]
    omega
  have hmatch : matchesAt content ((content.drop start).take (end_ - start)) start = true := by
    unfold matchesAt
    rw [decide_eq_true_iff]
    rw [hexlen]
    exact ⟨by omega, rfl⟩
  have hj0 : jsIndexOf content
      ((content.drop (start - CONTEXT_LENGTH)).take (start - (start - CONTEXT_LENGTH))) 0
      = some (start - CONTEXT_LENGTH) := by
    unfold jsIndexOf
    rw [show clampIdx content.length 0 = 0 from by simp [clampIdx]]
    exact hpfx
  have hcursor : relocCursor content (captureQ content start end_) none
      = ((start : Nat) : Int) := by
    simp only [relocCursor, captureQ, hj0]
    rw [hplen]
    omega
  constructor
  · unfold fromTextPosition
    rw [if_neg (by omega), if_neg (by omega)]
    rw [Int.toNat_natCast, Int.toNat_natCast]
  · unfold toTextPosition
    rw [hcursor]
    unfold jsIndexOf
    rw [show clampIdx content.length ((start : Nat) : Int) = start from by
      simp [clampIdx]; omega]
    rw [show (captureQ content start end_).exact
        = (content.drop start).take (end_ - start) from rfl]
    rw [findFrom_self hmatch, hexlen]
    show some (start, start + (end_ - start)) = some (start, end_)
    rw [show start + (end_ - start) = end_ from by omega]

/-- Witness for C4 (amended) at the spec's concrete scenario: content
`"The quick brown fox"`, offsets 4–9; capture yields exact `"quick"`,
prefix `"The "`, suffix `" brown fox"`, and resolution returns
`[4, 9)`. -/
theorem capture_resolve_roundtrip_w :
    captureQ "The quick brown fox".toList 4 9
      = ⟨"quick".toList, some "The ".toList, some " brown fox".toList⟩ ∧
    (fromTextPosition "The quick brown fox".toList 4 9
      = .ok (captureQ "The quick brown fox".toList 4 9) ∧
     toTextPosition "The quick brown fox".toList
       (captureQ "The quick brown fox".toList 4 9) none = some (4, 9)) :=
  ⟨by decide,
   capture_resolve_roundtrip "The quick brown fox".toList 4 9
     (by decide) (by decide) (by decide)⟩

/-! ## Claim C8: hint robustness for a uniquely occurring quote -/

/-- Counterexample to C8 as stated: `"a"` occurs exactly once in
`"ab"`, resolution with no hint finds it, but a hint beyond the
occurrence (`5`) makes resolution fail — so a unique quote is *not*
found for every value of the hint. -/
theorem unique_quote_hint_robust_cex :
    toTextPosition "ab".toList ⟨"a".toList, none, none⟩ none = some (0, 1) ∧
    toTextPosition "ab".toList ⟨"a".toList, none, none⟩ (some 5) = none :=
  ⟨by decide, by decide⟩

/-- C8 (amended): for a quote selector whose `exact` occurs at exactly
one position `i0`, resolution succeeds with span `[i0, i0 +
len(exact))` for every hint whose clamped, context-relocated cursor
lands at or before `i0`; when the cursor lands beyond `i0`, resolution
fails. -/
theorem unique_quote_hint_robust (content : List Char) (q : QuoteSel) (i0 : Nat)
    (hint : Option Int)
    (hocc : matchesAt content q.exact i0 = true)
    (huniq : ∀ j, matchesAt content q.exact j = true → j = i0) :
    (clampIdx content.length (relocCursor content q hint) ≤ i0 →
      toTextPosition content q hint = some (i0, i0 + q.exact.length)) ∧
    (i0 < clampIdx content.length (relocCursor content q hint) →
      toTextPosition content q hint = none) := by
  constructor
  · intro hle
    obtain ⟨r, hr, _, _, hrm⟩ := findFrom_exists hocc hle
    have hri0 : r = i0 := huniq r hrm
    unfold toTextPosition jsIndexOf
    rw [hr, hri0]
  · intro hgt
    unfold toTextPosition jsIndexOf
    cases hres : findFrom content q.exact
        (clampIdx content.length (relocCursor content q hint)) with
    | none => rfl
    | some r =>
      obtain ⟨h1, h2, _⟩ := findFrom_some hres
      have := huniq r h2
      omega

/-- Witness for C8 (amended): `"a"` occurs uniquely at `0` in `"ab"`
and is found with no hint. -/
theorem unique_quote_hint_robust_w :
    toTextPosition "ab".toList ⟨"a".toList, none, none⟩ none = some (0, 0 + "a".toList.length) :=
  (unique_quote_hint_robust "ab".toList ⟨"a".toList, none, none⟩ 0 none
    (by decide)
    (fun j hj => by
      have hb : j ≤ 2 := by simpa using matchesAt_le_length hj
      interval_cases j
      · rfl
      · exact absurd hj (by decide)
      · exact absurd hj (by decide))).1 (by decide)

/-! ## Claim C2: position first, quote verification, quote fallback -/

/-- C2: when both a position and a quote selector are picked by the
pipeline, the position selector is resolved first and, when its text
equals the quote's `exact`, its range is returned; on a text mismatch
that result is discarded and the quote selector's resolution is
returned instead; and when the position path yields no verified range
and the quote also fails, the pipeline fails with
`'unable to anchor'`. -/
theorem pipeline_position_first_then_quote (root : DNode) (ann : Ann)
    (p : PositionSel) (q : QuoteSel)
    (hp : lastPositionSel (lastSelectors ann.target) = some p)
    (hq : lastQuoteSel (lastSelectors ann.target) = some q) :
    (∀ r, positionQuery root p = .ok r → rangeToString root r = q.exact →
      selectorsToRange ann root = .ok r) ∧
    (∀ r r2, positionQuery root p = .ok r → rangeToString root r ≠ q.exact →
      quoteQuery root q none = .ok r2 → selectorsToRange ann root = .ok r2) ∧
    ((∀ r, positionQuery root p = .ok r → rangeToString root r ≠ q.exact) →
      ∀ e, quoteQuery root q none = .error e →
        selectorsToRange ann root = .error unableToAnchorMsg) := by
  unfold selectorsToRange selectorsToRangeCore
  dsimp only
  rw [hp, hq]
  refine ⟨?_, ?_, ?_⟩
  · intro r hr hmatch
    simp [hr, maybeAssertQuote, hmatch]
  · intro r r2 hr hne hr2
    simp [hr, maybeAssertQuote, hne, hr2]
  · intro hne e he
    cases hpos : positionQuery root p with
    | error e2 => simp [hpos, he]
    | ok r => simp [hpos, he, maybeAssertQuote, hne r hpos]

/-- Witness for C2 on a one-text-node document `"abc"` with position
selector `(0, 1)` and quote `"b"`: the position span's text `"a"`
mismatches, so the pipeline discards it and returns the quote's span
`[1, 2)`. -/
theorem pipeline_position_first_then_quote_w :
    selectorsToRange
      { target := [⟨some [.position ⟨0, 1⟩, .quote ⟨"b".toList, none, none⟩]⟩] }
      (.elem 0 [] [.text 1 "abc".toList])
      = .ok ⟨1, 1, 1, 2, 1⟩ :=
  (pipeline_position_first_then_quote (.elem 0 [] [.text 1 "abc".toList])
      { target := [⟨some [.position ⟨0, 1⟩, .quote ⟨"b".toList, none, none⟩]⟩] }
      ⟨0, 1⟩ ⟨"b".toList, none, none⟩ (by decide) (by decide)).2.1
    ⟨1, 0, 1, 1, 1⟩ ⟨1, 1, 1, 2, 1⟩ rfl (by decide) rfl

/-! ## Claim C7: several selectors of the same kind -/

/-- Counterexample to C7 as stated: with two position selectors
`(0, 1)` and `(2, 3)` over `"abcd"`, the pipeline resolves the *last*
one — the selector loop overwrites `position` on every
`TextPositionSelector` — so the result is the span `[2, 3)`, not the
first selector's `[0, 1)`. -/
theorem pipeline_first_of_kind_cex :
    selectorsToRange
      { target := [⟨some [.position ⟨0, 1⟩, .position ⟨2, 3⟩]⟩] }
      (.elem 0 [] [.text 1 "abcd".toList])
      = .ok ⟨1, 2, 1, 3, 1⟩ ∧
    selectorsToRange
      { target := [⟨some [.position ⟨0, 1⟩, .position ⟨2, 3⟩]⟩] }
      (.elem 0 [] [.text 1 "abcd".toList])
      ≠ .ok ⟨1, 0, 1, 1, 1⟩ := by
  refine ⟨rfl, fun h => ?_⟩
  rw [show selectorsToRange
      { target := [⟨some [.position ⟨0, 1⟩, .position ⟨2, 3⟩]⟩] }
      (.elem 0 [] [.text 1 "abcd".toList]) = .ok ⟨1, 2, 1, 3, 1⟩ from rfl] at h
  injection h with h
  exact absurd h (by decide)

/-- C7 (amended): the pipeline uses the *last* selector of each kind
(each matching selector overwrites the previous one in the loop): a
selector appended to the list wins for its kind, and the pipeline's
result depends only on the last position and last quote selector. -/
theorem pipeline_last_of_kind :
    (∀ (ss : List Selector) (p : PositionSel),
      lastPositionSel (ss ++ [.position p]) = some p) ∧
    (∀ (ss : List Selector) (q : QuoteSel),
      lastQuoteSel (ss ++ [.quote q]) = some q) ∧
    (∀ (root : DNode) (a b : Ann),
      lastPositionSel (lastSelectors a.target) = lastPositionSel (lastSelectors b.target) →
      lastQuoteSel (lastSelectors a.target) = lastQuoteSel (lastSelectors b.target) →
      selectorsToRange a root = selectorsToRange b root) := by
  refine ⟨?_, ?_, ?_⟩
  · intro ss p
    unfold lastPositionSel
    rw [List.foldl_append]
    rfl
  · intro ss q
    unfold lastQuoteSel
    rw [List.foldl_append]
    rfl
  · intro root a b hp hq
    unfold selectorsToRange
    dsimp only
    rw [hp, hq]

/-- Witness for C7 (amended): an annotation holding both position
selectors resolves identically to one holding only the last. -/
theorem pipeline_last_of_kind_w :
    selectorsToRange
      { target := [⟨some [.position ⟨0, 1⟩, .position ⟨2, 3⟩]⟩] }
      (.elem 0 [] [.text 1 "abcd".toList])
      = selectorsToRange
      { target := [⟨some [.position ⟨2, 3⟩]⟩] }
      (.elem 0 [] [.text 1 "abcd".toList]) :=
  pipeline_last_of_kind.2.2 (.elem 0 [] [.text 1 "abcd".toList])
    { target := [⟨some [.position ⟨0, 1⟩, .position ⟨2, 3⟩]⟩] }
    { target := [⟨some [.position ⟨2, 3⟩]⟩] }
    (by decide) (by decide)

/-! ## Claim C6: a raw span normalizes at most once -/

/-- C6: every call to `normalize` leaves the `BrowserRange` tainted,
and a `normalize` call on a tainted range fails — it produces the
`false` failure value (after `console.error`, the loud signal the spec
names `AlreadyNormalizedError`) instead of re-splitting: the document
and the range are returned unchanged and no normalized span is
produced. -/
theorem normalize_at_most_once :
    (∀ (br : BrowserRange) (st : DocState),
      ((br.normalize st).2.1).tainted = true) ∧
    (∀ (br : BrowserRange) (st : DocState), br.tainted = true →
      br.normalize st = (.ok .falseValue, br, st)) := by
  constructor
  · intro br st
    unfold BrowserRange.normalize
    by_cases h : br.tainted
    · rw [if_pos h]; exact h
    · rw [if_neg h]
      cases hnc : normalizeCore { br with tainted := true } st <;> simp [hnc]
  · intro br st h
    unfold BrowserRange.normalize
    rw [if_pos h]

/-- Witness for C6: a tainted range over a one-text-node document
yields the `false` failure and no document change. -/
theorem normalize_at_most_once_w :
    BrowserRange.normalize ⟨1, 1, 0, 1, 2, true⟩
        ⟨.elem 0 [] [.text 1 "ab".toList], 2⟩
      = (.ok .falseValue, ⟨1, 1, 0, 1, 2, true⟩,
         ⟨.elem 0 [] [.text 1 "ab".toList], 2⟩) :=
  normalize_at_most_once.2 ⟨1, 1, 0, 1, 2, true⟩
    ⟨.elem 0 [] [.text 1 "ab".toList], 2⟩ rfl

/-! ## Claim C5: what `draw` records on the annotation -/

/-- The prior recorded marker list `draw` starts from:
`annotation._local.highlights` after the missing-`_local` and
missing-`highlights` defaults. -/
def oldHl (ann : Ann) : List Nat :=
  ((ann._local.getD {}).highlights).getD []

theorem highlightRangeGo_fresh (cls : List Char) :
    ∀ (ns : List Nat) (st : DocState),
      st.fresh ≤ (highlightRangeGo cls ns st).2.fresh ∧
      ∀ h ∈ (highlightRangeGo cls ns st).1, st.fresh ≤ h := by
  intro ns
  induction ns with
  | nil => intro st; simp [highlightRangeGo]
  | cons nid rest ih =>
    intro st
    unfold highlightRangeGo
    cases hv : nodeValueOf st.root nid with
    | none => exact ih st
    | some v =>
      dsimp only
      by_cases hw : wsOnly v
      · rw [if_pos hw]; exact ih st
      · rw [if_neg hw]
        have hrec := ih ⟨wrapText nid st.fresh cls st.root, st.fresh + 1⟩
        refine ⟨by have := hrec.1; simp at this ⊢; omega, ?_⟩
        intro h hmem
        rcases List.mem_cons.mp hmem with rfl | hmem2
        · exact Nat.le_refl _
        · have := hrec.2 h hmem2
          simp at this
          omega

theorem highlightAll_fresh (cls : List Char) :
    ∀ (ns : List NormResult) (st : DocState) (hs : List Nat) (st' : DocState),
      highlightAll cls ns st = .ok (hs, st') →
      st.fresh ≤ st'.fresh ∧ ∀ h ∈ hs, st.fresh ≤ h := by
  intro ns
  induction ns with
  | nil =>
    intro st hs st' h
    unfold highlightAll at h
    injection h with h
    cases h
    simp
  | cons n rest ih =>
    intro st hs st' h
    unfold highlightAll at h
    cases n with
    | falseValue => exact absurd h (by simp)
    | normed nr =>
      simp only [highlightRange, bind, Except.bind] at h
      cases hrec : highlightAll cls rest (highlightRangeGo cls (nr.textNodes st.root) st).2 with
      | error e => rw [hrec] at h; exact absurd h (by simp)
      | ok v =>
        rw [hrec] at h
        obtain ⟨hs2, st2⟩ := v
        simp only [pure, Except.pure] at h
        injection h with h
        have hgo := highlightRangeGo_fresh cls (nr.textNodes st.root) st
        have hih := ih _ _ _ hrec
        cases h
        refine ⟨by omega, ?_⟩
        intro x hx
        rcases List.mem_append.mp hx with hx1 | hx2
        · exact hgo.2 x hx1
        · exact Nat.le_trans hgo.1 (hih.2 x hx2)

theorem normalizeCore_fresh (br : BrowserRange) (st : DocState) :
    ∀ nr st', normalizeCore br st = .ok (nr, st') → st.fresh ≤ st'.fresh := by
  intro nr st' h
  unfold normalizeCore at h
  simp only [bind, Except.bind, pure, Except.pure] at h
  repeat' split at h
  all_goals
    try (rw [Except.ok.injEq, Prod.mk.injEq] at h
         obtain ⟨h1, h2⟩ := h
         subst h2
         simp <;> omega)
  all_goals exact absurd h (by simp)

theorem normalize_fresh (br : BrowserRange) (st : DocState) :
    st.fresh ≤ ((br.normalize st).2.2).fresh := by
  unfold BrowserRange.normalize
  by_cases h : br.tainted
  · rw [if_pos h]
  · rw [if_neg h]
    dsimp only
    cases hnc : normalizeCore { br with tainted := true } st with
    | ok v =>
      obtain ⟨n2, st2⟩ := v
      simpa using normalizeCore_fresh _ _ n2 st2 hnc
    | error e => simp

theorem reanchorAll_fresh :
    ∀ (rs : List DRange) (st : DocState) (ns : List NormResult) (st' : DocState),
      reanchorAll rs st = .ok (ns, st') → st.fresh ≤ st'.fresh := by
  intro rs
  induction rs with
  | nil =>
    intro st ns st' h
    unfold reanchorAll at h
    injection h with h
    cases h
    exact Nat.le_refl _
  | cons r rest ih =>
    intro st ns st' h
    unfold reanchorAll at h
    simp only [reanchorRange, bind, Except.bind, pure, Except.pure] at h
    have hn := normalize_fresh
      ⟨r.commonAncestorContainer, r.startContainer, r.startOffset,
       r.endContainer, r.endOffset, false⟩ st
    split at h
    · exact absurd h (by simp)
    · split at h
      · exact absurd h (by simp)
      · injection h with h
        cases h
        rename_i hrest
        exact Nat.le_trans hn (ih _ _ _ hrest)

/-- Counterexample to C5 as stated: drawing the same annotation twice
(without `undraw` in between).  The second `draw` wraps the text node
in one new marker (id `3`; the fresh counter moves `3 → 4`), yet the
recorded list afterwards is `[2, 3]` — it retains marker `2` from the
first call, which was already in the document — not just this call's
`[3]`.  The list accumulates instead of being replaced. -/
theorem draw_replaces_prior_list_cex :
    draw {} { target := [⟨some [.quote ⟨"ab".toList, none, none⟩]⟩] }
        ⟨.elem 0 [] [.text 1 "ab".toList], 2⟩
      = .ok ([2],
          { target := [⟨some [.quote ⟨"ab".toList, none, none⟩]⟩],
            _local := some ⟨some [⟨1, 0, 1, 2, 1⟩], some [2]⟩ },
          ⟨.elem 0 [] [.elem 2 "annotator-hl".toList [.text 1 "ab".toList]], 3⟩) ∧
    draw {} { target := [⟨some [.quote ⟨"ab".toList, none, none⟩]⟩],
              _local := some ⟨some [⟨1, 0, 1, 2, 1⟩], some [2]⟩ }
        ⟨.elem 0 [] [.elem 2 "annotator-hl".toList [.text 1 "ab".toList]], 3⟩
      = .ok ([2, 3],
          { target := [⟨some [.quote ⟨"ab".toList, none, none⟩]⟩],
            _local := some ⟨some [⟨1, 0, 1, 2, 1⟩], some [2, 3]⟩ },
          ⟨.elem 0 [] [.elem 2 "annotator-hl".toList
            [.elem 3 "annotator-hl".toList [.text 1 "ab".toList]]], 4⟩) ∧
    2 ∈ nodeIds (.elem 0 [] [.elem 2 "annotator-hl".toList [.text 1 "ab".toList]]) ∧
    (some [2, 3] : Option (List Nat)) ≠ some [3] :=
  ⟨rfl, rfl, by decide, by decide⟩

/-- C5 (amended): after a successful `draw`, the annotation's transient
marker list is the *previously recorded list with this call's freshly
created markers appended* (so it equals exactly this call's markers
only when no list was recorded before — first draw, or after
`undraw`).  `draw` returns that same appended list. -/
theorem draw_appends (opts : HighlighterOpts) (ann : Ann) (st : DocState)
    (ret : List Nat) (ann' : Ann) (st' : DocState)
    (h : draw opts ann st = .ok (ret, ann', st')) :
    ∃ created r,
      ann'._local = some { ranges := some [r],
                           highlights := some (oldHl ann ++ created) } ∧
      ret = oldHl ann ++ created ∧
      st.fresh ≤ st'.fresh ∧
      ∀ c ∈ created, st.fresh ≤ c := by
  unfold draw at h
  simp only [bind, Except.bind, pure, Except.pure] at h
  cases hsel : selectorsToRange ann st.root with
  | error e => rw [hsel] at h; exact absurd h (by simp)
  | ok range =>
    rw [hsel] at h
    dsimp only at h
    cases hre : reanchorAll [range] st with
    | error e => rw [hre] at h; exact absurd h (by simp)
    | ok v1 =>
      obtain ⟨normed, st1⟩ := v1
      rw [hre] at h
      dsimp only at h
      cases hha : highlightAll opts.highlightClass normed st1 with
      | error e => rw [hha] at h; exact absurd h (by simp)
      | ok v2 =>
        obtain ⟨created, st2⟩ := v2
        rw [hha] at h
        dsimp only at h
        rw [Except.ok.injEq, Prod.mk.injEq, Prod.mk.injEq] at h
        obtain ⟨h1, h2, h3⟩ := h
        subst h3
        refine ⟨created, range, ?_, h1.symm, ?_, ?_⟩
        · rw [← h2]; rfl
        · exact Nat.le_trans (reanchorAll_fresh _ _ _ _ hre)
            (highlightAll_fresh _ _ _ _ _ hha).1
        · intro c hc
          exact Nat.le_trans (reanchorAll_fresh _ _ _ _ hre)
            ((highlightAll_fresh _ _ _ _ _ hha).2 c hc)

/-- Witness for C5 (amended) at the first draw of the counterexample
document: the prior list is empty, and the recorded list is exactly the
freshly created `[2]`. -/
theorem draw_appends_w :
    ∃ created r,
      (Ann._local { target := [⟨some [.quote ⟨"ab".toList, none, none⟩]⟩],
                    _local := some ⟨some [⟨1, 0, 1, 2, 1⟩], some [2]⟩ })
        = some { ranges := some [r],
                 highlights := some
                   (oldHl { target := [⟨some [.quote ⟨"ab".toList, none, none⟩]⟩] }
                     ++ created) } ∧
      [2] = oldHl { target := [⟨some [.quote ⟨"ab".toList, none, none⟩]⟩] } ++ created ∧
      (2 : Nat) ≤ 3 ∧
      ∀ c ∈ created, (2 : Nat) ≤ c :=
  draw_appends {} { target := [⟨some [.quote ⟨"ab".toList, none, none⟩]⟩] }
    ⟨.elem 0 [] [.text 1 "ab".toList], 2⟩ [2]
    { target := [⟨some [.quote ⟨"ab".toList, none, none⟩]⟩],
      _local := some ⟨some [⟨1, 0, 1, 2, 1⟩], some [2]⟩ }
    ⟨.elem 0 [] [.elem 2 "annotator-hl".toList [.text 1 "ab".toList]], 3⟩ rfl

/-! ## Structural lemmas about `unwrapGo`

Well-formedness of a document is `Nodup` of its node ids (JS object
identity gives this for free). -/

theorem nodeIds_eq (r : DNode) :
    nodeIds r = r.idOf :: nodeIdsList r.childrenOf := by
  cases r <;> rfl

theorem idOf_unwrapGo (r : DNode) (x : Nat) : (unwrapGo r x).idOf = r.idOf := by
  cases r <;> rfl

theorem nodeIdsList_append :
    ∀ (as bs : List DNode),
      nodeIdsList (as ++ bs) = nodeIdsList as ++ nodeIdsList bs := by
  intro as bs
  induction as with
  | nil => rfl
  | cons c cs ih => simp [nodeIdsList, ih]

theorem childIds_sublist (c : DNode) :
    (nodeIdsList c.childrenOf).Sublist (nodeIds c) := by
  cases c with
  | text i v => simp [DNode.childrenOf, nodeIdsList, nodeIds]
  | elem i cls cs =>
    simp only [DNode.childrenOf, nodeIds]
    exact List.sublist_cons_self _ _

mutual

theorem unwrapGo_sublist :
    ∀ (n : DNode) (x : Nat), (nodeIds (unwrapGo n x)).Sublist (nodeIds n)
  | .text i v, x => by simp [unwrapGo]
  | .elem i cls cs, x => by
    simp only [unwrapGo, nodeIds]
    exact List.Sublist.cons₂ _ (unwrapGoList_sublist cs x)

theorem unwrapGoList_sublist :
    ∀ (cs : List DNode) (x : Nat),
      (nodeIdsList (unwrapGoList cs x)).Sublist (nodeIdsList cs)
  | [], x => by simp [unwrapGoList]
  | c :: cs, x => by
    simp only [unwrapGoList]
    by_cases hc : c.idOf = x
    · rw [if_pos hc, nodeIdsList_append]
      show (nodeIdsList c.childrenOf ++ nodeIdsList (unwrapGoList cs x)).Sublist
        (nodeIdsList (c :: cs))
      exact List.Sublist.append (childIds_sublist c) (unwrapGoList_sublist cs x)
    · rw [if_neg hc]
      show (nodeIds (unwrapGo c x) ++ nodeIdsList (unwrapGoList cs x)).Sublist
        (nodeIds c ++ nodeIdsList cs)
      exact List.Sublist.append (unwrapGo_sublist c x) (unwrapGoList_sublist cs x)

end

theorem idOf_mem (n : DNode) : n.idOf ∈ nodeIds n := by
  cases n <;> simp [nodeIds, DNode.idOf]

mutual

theorem unwrapGo_not_mem :
    ∀ (n : DNode) (x : Nat), (nodeIds n).Nodup → x ≠ n.idOf →
      x ∉ nodeIds (unwrapGo n x)
  | .text i v, x => by
    intro _ hne
    simpa [unwrapGo, nodeIds] using fun h => hne (by simpa [DNode.idOf] using h)
  | .elem i cls cs, x => by
    intro hnd hne
    simp only [unwrapGo, nodeIds, List.mem_cons, not_or]
    refine ⟨fun h => hne (by simpa [DNode.idOf] using h), ?_⟩
    have hnd2 : (nodeIdsList cs).Nodup := by
      rw [nodeIds_eq] at hnd
      exact hnd.of_cons
    exact unwrapGoList_not_mem cs x hnd2

theorem unwrapGoList_not_mem :
    ∀ (cs : List DNode) (x : Nat), (nodeIdsList cs).Nodup →
      x ∉ nodeIdsList (unwrapGoList cs x)
  | [], x => by simp [unwrapGoList, nodeIdsList]
  | c :: cs, x => by
    intro hnd
    have hnds : (nodeIds c ++ nodeIdsList cs).Nodup := by
      simpa [nodeIdsList] using hnd
    simp only [unwrapGoList]
    by_cases hc : c.idOf = x
    · rw [if_pos hc, nodeIdsList_append, List.mem_append, not_or]
      constructor
      · have hnc : (nodeIds c).Nodup := hnds.of_append_left
        rw [nodeIds_eq, hc] at hnc
        exact (List.nodup_cons.mp hnc).1
      · have hdisj : ∀ a ∈ nodeIds c, a ∉ nodeIdsList cs :=
          fun a ha => (List.disjoint_of_nodup_append hnds) ha
        intro hmem
        exact hdisj x (hc ▸ idOf_mem c)
          ((unwrapGoList_sublist cs x).subset hmem)
    · rw [if_neg hc]
      show x ∉ nodeIds (unwrapGo c x) ++ nodeIdsList (unwrapGoList cs x)
      rw [List.mem_append, not_or]
      exact ⟨unwrapGo_not_mem c x hnds.of_append_left (fun h => hc h.symm),
             unwrapGoList_not_mem cs x hnds.of_append_right⟩

end

mutual

theorem unwrapGo_eq_of_not_mem :
    ∀ (n : DNode) (x : Nat), x ∉ nodeIds n → unwrapGo n x = n
  | .text i v, x => by intro _; rfl
  | .elem i cls cs, x => by
    intro h
    simp only [nodeIds, List.mem_cons, not_or] at h
    simp only [unwrapGo]
    rw [unwrapGoList_eq_of_not_mem cs x h.2]

theorem unwrapGoList_eq_of_not_mem :
    ∀ (cs : List DNode) (x : Nat), x ∉ nodeIdsList cs → unwrapGoList cs x = cs
  | [], x => by intro _; rfl
  | c :: cs, x => by
    intro h
    have h' : x ∉ nodeIds c ∧ x ∉ nodeIdsList cs := by
      constructor <;> intro hx <;>
        exact h (by simp [nodeIdsList, List.mem_append, hx])
    simp only [unwrapGoList]
    rw [if_neg (fun hc : c.idOf = x => h'.1 (by rw [← hc]; exact idOf_mem c)),
        unwrapGo_eq_of_not_mem c x h'.1, unwrapGoList_eq_of_not_mem cs x h'.2]

end

/-- The `h.parentNode !== null` guard of `undraw` changes nothing: a
marker not in the document is left alone by `unwrapGo` as well. -/
theorem undrawStep_eq (r : DNode) (h : Nat) : undrawStep r h = unwrapGo r h := by
  unfold undrawStep
  by_cases hc : (nodeIdsList r.childrenOf).contains h
  · rw [if_pos hc]
  · rw [if_neg hc]
    have hnm : h ∉ nodeIdsList r.childrenOf := by simpa using hc
    cases r with
    | text i v => rfl
    | elem i cls cs =>
      show DNode.elem i cls cs = unwrapGo (.elem i cls cs) h
      simp only [unwrapGo]
      rw [unwrapGoList_eq_of_not_mem cs h hnm]

theorem foldl_undrawStep_eq :
    ∀ (hs : List Nat) (r : DNode), hs.foldl undrawStep r = hs.foldl unwrapGo r := by
  intro hs
  induction hs with
  | nil => intro r; rfl
  | cons h hs ih =>
    intro r
    show hs.foldl undrawStep (undrawStep r h) = _
    rw [undrawStep_eq, ih]
    rfl

/-- Folding marker removal over a list of ids (none of them the root's)
removes every one of them from a well-formed document; the surviving
ids are a sublist of the original ones and the root id is kept. -/
theorem unwrap_fold_removes :
    ∀ (ms : List Nat) (r : DNode), (nodeIds r).Nodup → (∀ m ∈ ms, m ≠ r.idOf) →
      (∀ m ∈ ms, m ∉ nodeIds (ms.foldl unwrapGo r)) ∧
      (nodeIds (ms.foldl unwrapGo r)).Sublist (nodeIds r) ∧
      (ms.foldl unwrapGo r).idOf = r.idOf := by
  intro ms
  induction ms with
  | nil =>
    intro r _ _
    exact ⟨by simp, List.Sublist.refl _, rfl⟩
  | cons m ms ih =>
    intro r hnd hne
    have hid : (unwrapGo r m).idOf = r.idOf := idOf_unwrapGo r m
    have hsub : (nodeIds (unwrapGo r m)).Sublist (nodeIds r) := unwrapGo_sublist r m
    have hnd1 : (nodeIds (unwrapGo r m)).Nodup := hsub.nodup hnd
    have hne1 : ∀ x ∈ ms, x ≠ (unwrapGo r m).idOf := fun x hx => by
      rw [hid]; exact hne x (List.mem_cons_of_mem m hx)
    obtain ⟨ha, hb, hc⟩ := ih (unwrapGo r m) hnd1 hne1
    refine ⟨?_, hb.trans hsub, hc.trans hid⟩
    intro x hx
    rcases List.mem_cons.mp hx with rfl | hx2
    · have hm : x ∉ nodeIds (unwrapGo r x) :=
        unwrapGo_not_mem r x hnd (hne x (List.mem_cons_self x ms))
      exact fun hmem => hm (hb.subset hmem)
    · exact ha x hx2

/-- A fold of `undrawStep` over markers that are all absent from the
document is the identity. -/
theorem foldl_undrawStep_skip :
    ∀ (hs : List Nat) (r : DNode), (∀ h ∈ hs, h ∉ nodeIdsList r.childrenOf) →
      hs.foldl undrawStep r = r := by
  intro hs
  induction hs with
  | nil => intro r _; rfl
  | cons h hs ih =>
    intro r habs
    have h1 : undrawStep r h = r := by
      unfold undrawStep
      rw [if_neg (by simpa using habs h (List.mem_cons_self h hs))]
    show hs.foldl undrawStep (undrawStep r h) = r
    rw [h1, ih r (fun x hx => habs x (List.mem_cons_of_mem h hx))]

mutual

theorem markerIdsIncl_subset (cls : List Char) :
    ∀ (n : DNode), ∀ x ∈ markerIdsIncl cls n, x ∈ nodeIds n
  | .text i v => by simp [markerIdsIncl]
  | .elem i c cs => by
    intro x hx
    simp only [markerIdsIncl, List.mem_append] at hx
    rcases hx with hx1 | hx2
    · have : x = i := by
        by_cases hcc : c = cls
        · simpa [hcc] using hx1
        · simp [hcc] at hx1
      simp [nodeIds, this]
    · simp only [nodeIds, List.mem_cons]
      exact Or.inr (markerIdsListIncl_subset cls cs x hx2)

theorem markerIdsListIncl_subset (cls : List Char) :
    ∀ (cs : List DNode), ∀ x ∈ markerIdsListIncl cls cs, x ∈ nodeIdsList cs
  | [] => by simp [markerIdsListIncl, nodeIdsList]
  | c :: cs => by
    intro x hx
    simp only [markerIdsListIncl, List.mem_append] at hx
    show x ∈ nodeIds c ++ nodeIdsList cs
    rw [List.mem_append]
    rcases hx with hx1 | hx2
    · exact Or.inl (markerIdsIncl_subset cls c x hx1)
    · exact Or.inr (markerIdsListIncl_subset cls cs x hx2)

end

/-! ## Claim C9: `undraw` is idempotent and total -/

/-- The marker list `undraw` reads:
`annotation._local?.highlights` (empty when absent). -/
def recordedHl (ann : Ann) : List Nat :=
  (ann._local.bind AnnLocal.highlights).getD []

/-- C9: `undraw` on an annotation with no recorded marker list (never
drawn, or already undrawn) is a no-op; `undraw` immediately after
`undraw` changes nothing further; and after any `undraw` call, none of
the markers that were recorded for the annotation remains in the
(well-formed) document. -/
theorem undraw_idempotent_total (ann : Ann) (root : DNode)
    (hwf : (nodeIds root).Nodup)
    (hroot : ∀ h ∈ recordedHl ann, h ≠ root.idOf) :
    (ann._local.bind AnnLocal.highlights = none → undraw ann root = (ann, root)) ∧
    (undraw (undraw ann root).1 (undraw ann root).2 = undraw ann root) ∧
    (∀ h ∈ recordedHl ann, h ∉ nodeIds (undraw ann root).2) := by
  cases hal : ann._local with
  | none =>
    refine ⟨fun _ => by simp [undraw, hal], by simp [undraw, hal], ?_⟩
    intro h hm
    simp [recordedHl, hal] at hm
  | some l =>
    cases hh : l.highlights with
    | none =>
      refine ⟨fun _ => by simp [undraw, hal, hh], by simp [undraw, hal, hh], ?_⟩
      intro h hm
      simp [recordedHl, hal, hh] at hm
    | some hs =>
      have hrec : recordedHl ann = hs := by simp [recordedHl, hal, hh]
      have hu : undraw ann root =
          ({ ann with _local := some { l with highlights := none } },
           hs.foldl undrawStep root) := by
        simp [undraw, hal, hh]
      refine ⟨?_, ?_, ?_⟩
      · intro hnone
        simp [hal, hh] at hnone
      · rw [hu]
        simp [undraw]
      · intro h hm
        rw [hrec] at hm
        rw [hu]
        show h ∉ nodeIds (hs.foldl undrawStep root)
        rw [foldl_undrawStep_eq]
        exact (unwrap_fold_removes hs root hwf
          (fun m mm => hroot m (by rw [hrec]; exact mm))).1 h hm

/-- Witness for C9 on a document with one drawn marker (id 2): a second
`undraw` is a no-op and the marker is gone from the document. -/
theorem undraw_idempotent_total_w :
    (undraw
      (undraw { _local := some ⟨none, some [2]⟩ }
        (.elem 0 [] [.elem 2 "annotator-hl".toList [.text 1 "ab".toList]])).1
      (undraw { _local := some ⟨none, some [2]⟩ }
        (.elem 0 [] [.elem 2 "annotator-hl".toList [.text 1 "ab".toList]])).2
      = undraw { _local := some ⟨none, some [2]⟩ }
        (.elem 0 [] [.elem 2 "annotator-hl".toList [.text 1 "ab".toList]])) ∧
    2 ∉ nodeIds (undraw { _local := some ⟨none, some [2]⟩ }
        (.elem 0 [] [.elem 2 "annotator-hl".toList [.text 1 "ab".toList]])).2 :=
  ⟨(undraw_idempotent_total { _local := some ⟨none, some [2]⟩ }
      (.elem 0 [] [.elem 2 "annotator-hl".toList [.text 1 "ab".toList]])
      (by decide) (by decide)).2.1,
   (undraw_idempotent_total { _local := some ⟨none, some [2]⟩ }
      (.elem 0 [] [.elem 2 "annotator-hl".toList [.text 1 "ab".toList]])
      (by decide) (by decide)).2.2 2 (by decide)⟩

/-! ## Claim C10: `undraw` tolerates already-detached markers -/

/-- C10: markers recorded for an annotation but no longer attached
anywhere under the root are skipped without error — the document is
untouched and the transient list is still cleared — and `destroy`
removes every element with the highlight class from a well-formed
document, so `destroy()` followed by `undraw(annotation)` runs
cleanly. -/
theorem undraw_tolerates_detached (opts : HighlighterOpts) :
    (∀ (root : DNode) (ann : Ann) (l : AnnLocal) (hs : List Nat),
      ann._local = some l → l.highlights = some hs →
      (∀ h ∈ hs, h ∉ nodeIdsList root.childrenOf) →
      undraw ann root
        = ({ ann with _local := some { l with highlights := none } }, root)) ∧
    (∀ root : DNode, (nodeIds root).Nodup →
      ∀ x ∈ markerIds opts.highlightClass root,
        x ∉ nodeIds (destroy opts root)) := by
  constructor
  · intro root ann l hs hal hh habs
    simp [undraw, hal, hh, foldl_undrawStep_skip hs root habs]
  · intro root hwf x hx
    unfold destroy
    have hsubset : ∀ m ∈ markerIds opts.highlightClass root,
        m ∈ nodeIdsList root.childrenOf := by
      intro m hm
      unfold markerIds at hm
      exact markerIdsListIncl_subset _ _ m hm
    have hne : ∀ m ∈ markerIds opts.highlightClass root, m ≠ root.idOf := by
      intro m hm heq
      have h1 : m ∈ nodeIdsList root.childrenOf := hsubset m hm
      have h2 := hwf
      rw [nodeIds_eq] at h2
      exact (List.nodup_cons.mp h2).1 (heq ▸ h1)
    exact (unwrap_fold_removes _ root hwf hne).1 x hx

/-- Witness for C10: an annotation whose only recorded marker (id 5) is
absent undraws cleanly with the document untouched, and `destroy`
removes the class-`annotator-hl` marker with id 2 from the document. -/
theorem undraw_tolerates_detached_w :
    undraw { _local := some ⟨none, some [5]⟩ } (.elem 0 [] [.text 1 "ab".toList])
      = ({ _local := some ⟨none, none⟩ }, .elem 0 [] [.text 1 "ab".toList]) ∧
    2 ∉ nodeIds (destroy {}
      (.elem 0 [] [.elem 2 "annotator-hl".toList [.text 1 "ab".toList]])) :=
  ⟨(undraw_tolerates_detached {}).1 (.elem 0 [] [.text 1 "ab".toList])
      { _local := some ⟨none, some [5]⟩ } ⟨none, some [5]⟩ [5] rfl rfl (by decide),
   (undraw_tolerates_detached {}).2
      (.elem 0 [] [.elem 2 "annotator-hl".toList [.text 1 "ab".toList]])
      (by decide) 2 (by decide)⟩

/-! ## Claim C1: `drawAll` and a failing annotation -/

/-- C1 (the claim is right, the code is wrong): `drawAll` over a batch
whose first annotation has no resolvable selectors rejects with
`'unable to anchor'` — `await this.draw(annotation)` in the chunk loop
has no `try`/`catch` — so the failing annotation aborts the batch and
the caller receives no markers at all, although the second annotation
alone draws fine (second conjunct).  The swallowed-failure behavior the
spec describes matches the vestigial guards (`Array.isArray(result)`,
`r !== null`) and the `reanchorRange` comment promising to swallow
re-anchoring errors, which the code's rethrow contradicts. -/
theorem drawAll_rejects_on_anchoring_failure :
    drawAll {} [({} : Ann), { target := [⟨some [.quote ⟨"ab".toList, none, none⟩]⟩] }]
        ⟨.elem 0 [] [.text 1 "ab".toList], 2⟩ = .error unableToAnchorMsg ∧
    (draw {} { target := [⟨some [.quote ⟨"ab".toList, none, none⟩]⟩] }
        ⟨.elem 0 [] [.text 1 "ab".toList], 2⟩).isOk = true :=
  ⟨rfl, rfl⟩

end Annotator
